import Mathlib

/-!
Verification of the keyword-extraction-and-ranking pipeline shared by the
scripts of this repository (`keword.py`, `12.py`, `yedek.py`, `keyword2.py`,
`gelişmiş.py`, `kalite.py`).  Each Python function used by the claims is
shallowly embedded as an executable Lean definition; external collaborators
(search API, Google Trends, the Amazon suggestion scraper, the trnlp stemmer)
are passed in as explicit parameters, mirroring the fact that the scripts
treat them as opaque data sources.
-/

set_option maxHeartbeats 1000000
set_option maxRecDepth 100000
set_option linter.unusedSectionVars false

namespace KeywordAnalyzer

/-! ## Character-level helpers

`re.findall(r'\b\w+\b', text.lower())` splits the lowercased text into the
maximal runs of word characters.  We model a word character as an
alphanumeric character or an underscore (the ASCII core of `\w`). -/

def isWordChar (c : Char) : Bool :=
  c.isAlphanum || c == '_'

/-- Maximal runs of characters satisfying `p`; `acc` holds the current run in
reverse.  This models both `re.findall(r'\b\w+\b', ·)` (with `p = isWordChar`)
and Python's `str.split()` (with `p = fun c => !c.isWhitespace`). -/
def splitRunsAux (p : Char → Bool) : List Char → List Char → List (List Char)
  | [], acc => if acc.isEmpty then [] else [acc.reverse]
  | c :: cs, acc =>
    if p c then splitRunsAux p cs (c :: acc)
    else if acc.isEmpty then splitRunsAux p cs []
    else acc.reverse :: splitRunsAux p cs []

def splitRuns (p : Char → Bool) (l : List Char) : List (List Char) :=
  splitRunsAux p l []

/-- Python's `str.lower()`, character by character. -/
def pyLower (s : String) : String :=
  String.mk (s.toList.map Char.toLower)

/-- `re.findall(r'\b\w+\b', s.lower())` — used by `extract_keywords_from_results`
in `keword.py`, `12.py` and `yedek.py`. -/
def findWords (s : String) : List String :=
  (splitRuns isWordChar (pyLower s).toList).map String.mk

/-- Python's `str.split()` (split on whitespace, dropping empty parts) — used
by `preprocess_text` in `keyword2.py`. -/
def pySplitWs (s : String) : List String :=
  (splitRuns (fun c => !c.isWhitespace) s.toList).map String.mk

/-- Python's `str.strip()`: drop leading and trailing whitespace. -/
def pyStrip (l : List Char) : List Char :=
  ((l.dropWhile Char.isWhitespace).reverse.dropWhile Char.isWhitespace).reverse

def pyStripStr (s : String) : String :=
  String.mk (pyStrip s.toList)

/-- Python's `str.isalnum()`: non-empty and every character alphanumeric. -/
def pyIsAlnum (s : String) : Bool :=
  !s.toList.isEmpty && s.toList.all Char.isAlphanum

/-- The text invariant of the spec: non-empty and with neither a leading nor a
trailing whitespace character. -/
def goodChars (l : List Char) : Bool :=
  match l.head?, l.getLast? with
  | some a, some b => !a.isWhitespace && !b.isWhitespace
  | _, _ => false

def goodText (s : String) : Bool :=
  goodChars s.toList

/-- `" ".join(tokens)` at the character level. -/
def joinSpace : List (List Char) → List Char
  | [] => []
  | t :: ts =>
    match ts with
    | [] => t
    | _ :: _ => t ++ ' ' :: joinSpace ts

/-- `" ".join(tokens)` — how `analyze_keywords` renders a bigram/trigram. -/
def joinTokens (ts : List String) : String :=
  String.mk (joinSpace (ts.map String.toList))

/-! ## The frequency ranker: `collections.Counter.most_common`

A `Counter` built from a list is a dict that iterates over the distinct items
in order of first appearance, mapping each to its number of occurrences.
`most_common(n)` sorts those pairs by count descending — a stable sort, so
items with equal counts keep their first-appearance order — and takes the
first `n`. -/

variable {α : Type} [DecidableEq α]

/-- The distinct items of `l` in order of first appearance (the iteration
order of `Counter(l)`). -/
def firstOccs : List α → List α
  | [] => []
  | x :: xs => x :: (firstOccs xs).filter (fun y => y != x)

/-- `list(Counter(l).items())`: each distinct item with its count, in
first-appearance order. -/
def counterItems (l : List α) : List (α × Nat) :=
  (firstOccs l).map (fun x => (x, l.count x))

/-- Insert `p` into a count-descending list, before the first entry whose
count does not exceed `p`'s (the insertion step of a stable descending
sort). -/
def insertDesc (p : α × Nat) : List (α × Nat) → List (α × Nat)
  | [] => [p]
  | q :: qs => if q.2 ≤ p.2 then p :: q :: qs else q :: insertDesc p qs

/-- Stable sort by count descending (the sort performed by
`Counter.most_common`). -/
def sortCountDesc : List (α × Nat) → List (α × Nat)
  | [] => []
  | p :: ps => insertDesc p (sortCountDesc ps)

/-- `Counter(l).most_common(n)`. -/
def most_common (n : Nat) (l : List α) : List (α × Nat) :=
  (sortCountDesc (counterItems l)).take n

/-! ## The n-gram builder: `nltk.ngrams`

`ngrams(seq, n)` yields every window of `n` consecutive items of `seq`. -/

def ngrams (n : Nat) (l : List α) : List (List α) :=
  (List.range (l.length + 1 - n)).map (fun i => (l.drop i).take n)

/-- Position of the first appearance of `a` in `l` (`l.index(a)`). -/
def firstIdx (a : α) : List α → Nat
  | [] => 0
  | x :: xs => if x = a then 0 else firstIdx a xs + 1

/-! ## The search-provider payload

The SERP response fields the scripts read: each organic result's optional
`snippet` and `title`, each related question's `question` string and each
related search's `query` string. -/

structure OrganicResult where
  title : Option String
  snippet : Option String
  deriving DecidableEq

structure SearchData where
  organic_results : List OrganicResult
  related_questions : List String
  related_searches : List String
  deriving DecidableEq

/-! ## `keword.py` (the same extraction code appears in `12.py` and
`yedek.py`) -/

/-- `extract_keywords_from_results` (`keword.py` lines 45-72): tokenize each
organic result's snippet then title, then the related questions, then the
related searches, concatenating everything into one token stream. -/
def keword_extract (sd : SearchData) : List String :=
  (sd.organic_results.flatMap (fun r =>
      (match r.snippet with | some s => findWords s | none => []) ++
      (match r.title with | some t => findWords t | none => []))) ++
    sd.related_questions.flatMap findWords ++
    sd.related_searches.flatMap findWords

/-- `[word for word in extracted_keywords if word not in self.stop_words]`
(`keword.py` line 83).  The stop-word set is construction-time data loaded
from the NLTK corpus; it is passed here explicitly. -/
def keword_filter (stop : List String) (tokens : List String) : List String :=
  tokens.filter (fun w => !(stop.contains w))

/-- Top-K cutoffs passed to `most_common` in `keword.py` lines 97-99. -/
def keword_unigram_top : Nat := 10

def keword_bigram_top : Nat := 5

def keword_trigram_top : Nat := 5

structure KCand where
  keyword : String
  count : Nat
  deriving DecidableEq

/-- The in-memory compute pass of `analyze_keywords` (`keword.py` lines
80-110): filter stop words, count unigrams/bigrams/trigrams, and combine the
ranked results into `potential_keywords`. -/
def keword_analyze_core (stop : List String) (extracted : List String) :
    List KCand :=
  let filtered := keword_filter stop extracted
  let keyword_counts := most_common keword_unigram_top filtered
  let bigram_counts := most_common keword_bigram_top (ngrams 2 filtered)
  let trigram_counts := most_common keword_trigram_top (ngrams 3 filtered)
  keyword_counts.map (fun p => ⟨p.1, p.2⟩) ++
    bigram_counts.map (fun p => ⟨joinTokens p.1, p.2⟩) ++
    trigram_counts.map (fun p => ⟨joinTokens p.1, p.2⟩)

/-- The analyzer object state read by `analyze_keywords`; the compute pass
assigns no attribute, which the step function below makes explicit by
returning the state it was given. -/
structure AnalyzerState where
  serp_api_key : String
  num_results : Nat
  stop_words : List String
  deriving DecidableEq

/-- One run of the `keword.py` compute pass as a state transformer: result
paired with the analyzer state after the call. -/
def keword_analyze_step (st : AnalyzerState) (extracted : List String) :
    List KCand × AnalyzerState :=
  (keword_analyze_core st.stop_words extracted, st)

/-! ## `12.py` -/

/-- Top-K cutoffs passed to `most_common` in `12.py` lines 129-131. -/
def twelve_unigram_top : Nat := 5

def twelve_bigram_top : Nat := 3

def twelve_trigram_top : Nat := 3

/-- `get_google_trends_data` (`12.py` lines 77-88): a trends failure or an
empty frame yields 0 and the pipeline continues.  `raw k = none` models the
`except` branch (or an empty time series); `some v` models a mean of `v`. -/
def get_google_trends_data (raw : String → Option Nat) (k : String) : Nat :=
  (raw k).getD 0

/-- `scrape_amazon_suggestions` (`12.py` lines 90-102): on failure the except
branch returns `[]`; on success each suggestion is `a.text.strip()`. -/
def scrape_amazon_suggestions (resp : Option (List String)) : List String :=
  match resp with
  | none => []
  | some raws => raws.map pyStripStr

structure TCand where
  keyword : String
  count : Nat
  trend_volume : Nat
  deriving DecidableEq

/-- Result of `12.py`'s `analyze_keywords`: `empty` is the `return {}` taken
when the search provider fails (or returns a falsy payload). -/
inductive Res12 where
  | empty : Res12
  | ok : List TCand → Res12
  deriving DecidableEq

/-- `analyze_keywords` (`12.py` lines 104-145).  `search` is the
`search_google` outcome (`none` for a request failure or falsy response),
`amazonResp` the raw suggestion texts (`none` for a scraper failure) and
`trendsRaw` the trends collaborator.  The extraction code of `12.py` is
line-for-line that of `keword.py`, hence the reuse of `keword_extract` and
`keword_filter`. -/
def twelve_analyze (search : Option SearchData) (stop : List String)
    (amazonResp : Option (List String)) (trendsRaw : String → Option Nat) :
    Res12 :=
  match search with
  | none => .empty
  | some sd =>
    let extracted := keword_extract sd
    let all := extracted ++ scrape_amazon_suggestions amazonResp
    let filtered := keword_filter stop all
    let keyword_counts := most_common twelve_unigram_top filtered
    let bigram_counts := most_common twelve_bigram_top (ngrams 2 filtered)
    let trigram_counts := most_common twelve_trigram_top (ngrams 3 filtered)
    .ok (keyword_counts.map
          (fun p => ⟨p.1, p.2, get_google_trends_data trendsRaw p.1⟩) ++
        bigram_counts.map (fun p =>
          ⟨joinTokens p.1, p.2, get_google_trends_data trendsRaw (joinTokens p.1)⟩) ++
        trigram_counts.map (fun p =>
          ⟨joinTokens p.1, p.2, get_google_trends_data trendsRaw (joinTokens p.1)⟩))

/-! ## `keyword2.py` (its analysis code is shared verbatim with
`templates/grok-1.py`) -/

/-- `self.intent_keywords` (`keyword2.py` line 34). -/
def intent_keywords : List String :=
  ["satın al", "fiyat", "indirim", "ucuz", "sipariş", "kargo", "stok"]

/-- Does `needle` occur at the head of `hay`? -/
def matchesAt : List Char → List Char → Bool
  | [], _ => true
  | _ :: _, [] => false
  | c :: cs, h :: hs => c == h && matchesAt cs hs

/-- Python's `needle in hay` substring test. -/
def hasSub (needle : List Char) : List Char → Bool
  | [] => needle.isEmpty
  | h :: hs => matchesAt needle (h :: hs) || hasSub needle hs

def hasSubstr (hay needle : String) : Bool :=
  hasSub needle.toList hay.toList

/-- `detect_purchase_intent` (`keyword2.py` lines 111-113). -/
def detect_purchase_intent (phrase : String) : Bool :=
  intent_keywords.any (fun intent => hasSubstr (pyLower phrase) intent)

/-- `self.synonym_dict` (`keyword2.py` lines 27-31, identical in `yedek.py`
lines 25-29). -/
def synonym_dict (k : String) : Option (List String) :=
  if k = "mavibet" then some ["bahis", "iddaa", "kumar"]
  else if k = "mavibetgir" then
    some ["mavibet giriş", "mavibet erişim", "mavibet bağlan"]
  else if k = "mavibetslot" then
    some ["mavibet slot oyunları", "mavibet slot makineleri", "mavibet slotları"]
  else none

/-- `preprocess_text` (`keyword2.py` lines 54-59): whitespace split, keep the
alphanumeric words lowercased, then drop stop words. -/
def preprocess_text (stop : List String) (text : String) : List String :=
  (((pySplitWs text).filter pyIsAlnum).map pyLower).filter
    (fun w => !(stop.contains w))

/-- `extract_keywords_from_results` (`keyword2.py` lines 66-88): preprocess
every snippet/title/question/query, then lemmatize each surviving token with
`lemmatize_word` (modelled by the opaque trnlp collaborator `stemOf`), AFTER
the stop-word filter has run. -/
def keyword2_extract (stop : List String) (stemOf : String → String)
    (sd : SearchData) : List String :=
  ((sd.organic_results.flatMap (fun r =>
      (match r.snippet with | some s => preprocess_text stop s | none => []) ++
      (match r.title with | some t => preprocess_text stop t | none => []))) ++
    sd.related_questions.flatMap (preprocess_text stop) ++
    sd.related_searches.flatMap (preprocess_text stop)).map stemOf

/-- The sentinel count `"eş anlamlı"` versus a numeric count. -/
inductive CountVal where
  | num : Nat → CountVal
  | synonymTag : CountVal
  deriving DecidableEq

inductive CandType where
  | single : CandType
  | bigram : CandType
  | trigram : CandType
  | synonym : CandType
  deriving DecidableEq

structure Cand2 where
  keyword : String
  count : CountVal
  type : CandType
  purchase_intent : Bool
  deriving DecidableEq

/-- The synonym-augmentation step of `analyze_keywords` (`keyword2.py` lines
177-181): when the analyzed keyword has a synonym list, append one candidate
per synonym, in list order, tagged `type = synonym` with the sentinel
count. -/
def keyword2_augment (keyword : String) (potential : List Cand2) :
    List Cand2 :=
  match synonym_dict keyword with
  | some syns =>
    potential ++ syns.map (fun s =>
      ⟨s, .synonymTag, .synonym, detect_purchase_intent s⟩)
  | none => potential

/-- Top-K cutoffs of `keyword2.py` lines 159-161 (same in
`templates/grok-1.py` lines 133-135). -/
def keyword2_unigram_top : Nat := 10

def keyword2_bigram_top : Nat := 5

def keyword2_trigram_top : Nat := 5

/-! ## `yedek.py` -/

/-- The synonym-augmentation step of `yedek.py` lines 119-123: candidates
there are `{"keyword": ..., "count": ...}` pairs. -/
def yedek_augment (keyword : String) (potential : List (String × CountVal)) :
    List (String × CountVal) :=
  match synonym_dict keyword with
  | some syns => potential ++ syns.map (fun s => (s, CountVal.synonymTag))
  | none => potential

/-- Top-K cutoffs of `yedek.py` lines 106-108. -/
def yedek_unigram_top : Nat := 10

def yedek_bigram_top : Nat := 5

def yedek_trigram_top : Nat := 5

/-! ## `gelişmiş.py` and `kalite.py` cutoffs -/

/-- `gelişmiş.py` line 95: `keyword_counts.most_common(10)` (unigrams only —
this variant builds no n-grams). -/
def gelismis_unigram_top : Nat := 10

/-- `kalite.py` line 235: `keyword_counts.most_common(5)` (unigrams only). -/
def kalite_unigram_top : Nat := 5

/-! ## `kalite.py` construction -/

/-- `validate_api_key` (`kalite.py` lines 98-113).  `attr` is the value of
the `self.serp_api_key` attribute at call time (`none` when the attribute has
not been assigned yet, in which case the attribute access raises
`AttributeError`, the catch-all `except Exception` runs and the method
returns `False`).  `respStatus` is the HTTP status of the account check
(`none` for a request failure). -/
def validate_api_key (attr : Option String) (respStatus : Option Nat) : Bool :=
  match attr with
  | none => false
  | some _ =>
    match respStatus with
    | some 200 => true
    | _ => false

inductive InitResult where
  | emptyKeyError : InitResult
  | invalidKeyError : InitResult
  | ok : InitResult
  deriving DecidableEq

/-- `__init__` (`kalite.py` lines 65-96).  The guard
`not serp_api_key or len(serp_api_key.strip()) == 0` raises the empty-key
`ValueError`; otherwise `self.validate_api_key()` runs BEFORE
`self.serp_api_key = serp_api_key` (line 79), so the attribute argument is
`none`. -/
def kalite_init (serp_api_key : String) (respStatus : Option Nat) :
    InitResult :=
  if serp_api_key.isEmpty || (pyStripStr serp_api_key).isEmpty then
    .emptyKeyError
  else if !(validate_api_key none respStatus) then
    .invalidKeyError
  else
    .ok

/-! ## Theorems -/

/-! ### The ranker: membership, permutation and stability lemmas -/

theorem mem_firstOccs {x : α} : ∀ {l : List α}, x ∈ firstOccs l ↔ x ∈ l
  | [] => Iff.rfl
  | c :: cs => by
    rw [firstOccs]
    simp only [List.mem_cons, List.mem_filter, bne_iff_ne]
    constructor
    · rintro (rfl | ⟨hm, _⟩)
      · exact .inl rfl
      · exact .inr (mem_firstOccs.1 hm)
    · rintro (rfl | hm)
      · exact .inl rfl
      · by_cases hxc : x = c
        · exact .inl hxc
        · exact .inr ⟨mem_firstOccs.2 hm, hxc⟩

theorem nodup_firstOccs : ∀ l : List α, (firstOccs l).Nodup
  | [] => List.nodup_nil
  | c :: cs => by
    rw [firstOccs, List.nodup_cons]
    refine ⟨?_, (nodup_firstOccs cs).filter _⟩
    intro hmem
    rw [List.mem_filter] at hmem
    simp at hmem

theorem insertDesc_perm (p : α × Nat) :
    ∀ t : List (α × Nat), (insertDesc p t).Perm (p :: t)
  | [] => List.Perm.refl _
  | q :: qs => by
    rw [insertDesc]
    by_cases h : q.2 ≤ p.2
    · rw [if_pos h]
    · rw [if_neg h]
      exact ((insertDesc_perm p qs).cons q).trans (List.Perm.swap p q qs)

theorem sortCountDesc_perm :
    ∀ t : List (α × Nat), (sortCountDesc t).Perm t
  | [] => List.Perm.refl _
  | q :: qs =>
    (insertDesc_perm q (sortCountDesc qs)).trans
      ((sortCountDesc_perm qs).cons q)

theorem sublist_insertDesc (p : α × Nat) :
    ∀ t : List (α × Nat), t.Sublist (insertDesc p t)
  | [] => List.nil_sublist _
  | q :: qs => by
    rw [insertDesc]
    by_cases h : q.2 ≤ p.2
    · rw [if_pos h]
      exact List.sublist_cons_self p (q :: qs)
    · rw [if_neg h]
      exact (sublist_insertDesc p qs).cons₂ q

theorem insertDesc_pair {p q : α × Nat} (hle : q.2 ≤ p.2) :
    ∀ {t : List (α × Nat)}, q ∈ t → [p, q].Sublist (insertDesc p t)
  | s :: ss, hq => by
    rw [insertDesc]
    by_cases h : s.2 ≤ p.2
    · rw [if_pos h]
      exact (List.singleton_sublist.2 hq).cons₂ p
    · rw [if_neg h]
      cases hq with
      | head => exact absurd hle h
      | tail _ hq' => exact (insertDesc_pair hle hq').cons s

/-- Stability of the `most_common` sort: an item that appears no later than
another item of no larger count stays before it. -/
theorem sortCountDesc_stable {p q : α × Nat} (hle : q.2 ≤ p.2) :
    ∀ {t : List (α × Nat)}, [p, q].Sublist t →
      [p, q].Sublist (sortCountDesc t)
  | [], h => by cases h
  | r :: rs, h => by
    rw [sortCountDesc]
    cases h with
    | cons _ h' =>
      exact (sortCountDesc_stable hle h').trans (sublist_insertDesc r _)
    | cons₂ _ h' =>
      exact insertDesc_pair hle
        ((sortCountDesc_perm rs).mem_iff.2 (List.singleton_sublist.1 h'))

/-- In a duplicate-free list, a two-element sublist survives `take k` as soon
as its later element does. -/
theorem take_pair_of_mem {x y : α × Nat} (hne : x ≠ y) :
    ∀ {s : List (α × Nat)} {k : Nat}, s.Nodup → [x, y].Sublist s →
      y ∈ s.take k → [x, y].Sublist (s.take k)
  | [], _, _, _, hy => by simp at hy
  | r :: rs, 0, _, _, hy => by simp at hy
  | r :: rs, k + 1, hnd, hxy, hy => by
    rw [List.take_succ_cons] at hy ⊢
    rw [List.nodup_cons] at hnd
    cases hxy with
    | cons _ h' =>
      have hyr : y ≠ r := by
        rintro rfl
        exact hnd.1 (h'.subset (List.mem_cons_of_mem x (List.mem_cons_self y [])))
      have hy' : y ∈ rs.take k := by
        cases hy with
        | head => exact absurd rfl hyr
        | tail _ h => exact h
      exact (take_pair_of_mem hne hnd.2 h' hy').cons r
    | cons₂ _ h' =>
      have hy' : y ∈ rs.take k := by
        cases hy with
        | head => exact absurd rfl (Ne.symm hne)
        | tail _ h => exact h
      exact (List.singleton_sublist.2 hy').cons₂ x

theorem nodup_counterItems (l : List α) : (counterItems l).Nodup := by
  rw [counterItems]
  exact (nodup_firstOccs l).map (fun a b h => congrArg Prod.fst h)

theorem nodup_sortCountDesc_counterItems (l : List α) :
    (sortCountDesc (counterItems l)).Nodup :=
  (sortCountDesc_perm (counterItems l)).symm.nodup (nodup_counterItems l)

/-- Every entry of `most_common` is a distinct item of the input paired with
its exact number of occurrences. -/
theorem most_common_mem {k : Nat} {l : List α} {p : α × Nat}
    (hp : p ∈ most_common k l) : p.1 ∈ l ∧ p.2 = l.count p.1 := by
  have h1 : p ∈ sortCountDesc (counterItems l) :=
    (List.take_sublist k _).subset hp
  have h2 : p ∈ counterItems l := (sortCountDesc_perm _).mem_iff.1 h1
  rw [counterItems, List.mem_map] at h2
  obtain ⟨x, hx, rfl⟩ := h2
  exact ⟨mem_firstOccs.1 hx, rfl⟩

/-- An item of `l` that first appears strictly before another item of `l`
precedes it in `firstOccs l`. -/
theorem pair_sublist_firstOccs {a b : α} (hne : a ≠ b) :
    ∀ {l : List α}, a ∈ l → b ∈ l → firstIdx a l < firstIdx b l →
      [a, b].Sublist (firstOccs l)
  | c :: cs, ha, hb, hidx => by
    rw [firstOccs]
    by_cases hca : c = a
    · subst hca
      have hbcs : b ∈ cs := by
        cases hb with
        | head => exact absurd rfl (Ne.symm hne)
        | tail _ h => exact h
      have hbf : b ∈ (firstOccs cs).filter (fun y => y != c) := by
        rw [List.mem_filter]
        exact ⟨mem_firstOccs.2 hbcs, by simp [Ne.symm hne]⟩
      exact (List.singleton_sublist.2 hbf).cons₂ c
    · by_cases hcb : c = b
      · subst hcb
        exfalso
        have h0 : firstIdx c (c :: cs) = 0 := by
          rw [firstIdx, if_pos rfl]
        rw [h0] at hidx
        omega
      · have ha' : a ∈ cs := by
          cases ha with
          | head => exact absurd rfl (fun h => hca h.symm)
          | tail _ h => exact h
        have hb' : b ∈ cs := by
          cases hb with
          | head => exact absurd rfl (fun h => hcb h.symm)
          | tail _ h => exact h
        have hidx' : firstIdx a cs < firstIdx b cs := by
          simp only [firstIdx, if_neg hca, if_neg hcb] at hidx
          omega
        have hsub := (pair_sublist_firstOccs hne ha' hb' hidx').filter
          (fun y => y != c)
        have heq : [a, b].filter (fun y => y != c) = [a, b] := by
          rw [List.filter_eq_self]
          intro z hz
          simp only [List.mem_cons, List.not_mem_nil, or_false,
            List.mem_singleton] at hz
          rcases hz with rfl | rfl <;> simp [bne_iff_ne] <;>
            intro h <;> [exact hca h.symm; exact hcb h.symm]
        rw [heq] at hsub
        exact hsub.cons c

theorem firstOccs_of_nodup : ∀ {l : List α}, l.Nodup → firstOccs l = l
  | [], _ => rfl
  | c :: cs, h => by
    rw [List.nodup_cons] at h
    rw [firstOccs, firstOccs_of_nodup h.2]
    congr 1
    rw [List.filter_eq_self]
    intro z hz
    simp only [bne_iff_ne, ne_eq, decide_eq_true_eq]
    rintro rfl
    exact h.1 hz

theorem insertDesc_of_all_le {p : α × Nat} :
    ∀ {t : List (α × Nat)}, (∀ r ∈ t, r.2 ≤ p.2) → insertDesc p t = p :: t
  | [], _ => rfl
  | q :: qs, h => by
    rw [insertDesc, if_pos (h q (List.mem_cons_self q qs))]

theorem sortCountDesc_of_all_eq {c : Nat} :
    ∀ {t : List (α × Nat)}, (∀ r ∈ t, r.2 = c) → sortCountDesc t = t
  | [], _ => rfl
  | q :: qs, h => by
    have hqs : ∀ r ∈ qs, r.2 = c := fun r hr =>
      h r (List.mem_cons_of_mem q hr)
    rw [sortCountDesc, sortCountDesc_of_all_eq hqs]
    refine insertDesc_of_all_le (fun r hr => ?_)
    rw [hqs r hr, h q (List.mem_cons_self q qs)]

/-- On a duplicate-free input every count is 1, so `most_common` returns the
first `k` items in input order. -/
theorem most_common_of_nodup {l : List α} (h : l.Nodup) (k : Nat) :
    most_common k l = (l.take k).map (fun x => (x, 1)) := by
  have hitems : counterItems l = l.map (fun x => (x, 1)) := by
    rw [counterItems, firstOccs_of_nodup h]
    exact List.map_congr_left (fun x hx => by
      rw [List.count_eq_one_of_mem h hx])
  have hsort : sortCountDesc (counterItems l) = counterItems l := by
    refine sortCountDesc_of_all_eq (c := 1) (fun r hr => ?_)
    rw [hitems, List.mem_map] at hr
    obtain ⟨x, _, rfl⟩ := hr
    rfl
  rw [most_common, hsort, hitems, List.map_take]

/-- C2: for every token sequence of length `L` and every `N ∈ {1,2,3}`, the
n-gram builder produces exactly `max 0 (L − N + 1)` n-grams, the `i`-th being
the `N` consecutive tokens starting at position `i` (so the original word
sequence is reconstructed around it), and for `L < N` it produces the empty
sequence rather than an error. -/
theorem ngram_builder_contract (n : Nat) (l : List String)
    (hn : n = 1 ∨ n = 2 ∨ n = 3) :
    (((ngrams n l).length : Int) = max 0 ((l.length : Int) - n + 1)) ∧
    (∀ i, i + n ≤ l.length →
      ∃ g, (ngrams n l).get? i = some g ∧ g.length = n ∧
        l.take i ++ g ++ l.drop (i + n) = l) ∧
    (l.length < n → ngrams n l = []) := by
  have h1 : 1 ≤ n := by rcases hn with h | h | h <;> omega
  have hlen : (ngrams n l).length = l.length + 1 - n := by
    simp [ngrams]
  refine ⟨by rw [hlen]; omega, fun i hi => ?_, fun h => ?_⟩
  · have hrange : i < l.length + 1 - n := by omega
    refine ⟨(l.drop i).take n, ?_, ?_, ?_⟩
    · simp [ngrams, List.get?_eq_getElem?, List.getElem?_map,
        List.getElem?_range hrange]
    · simp [List.length_take, List.length_drop]
      omega
    · rw [List.append_assoc]
      have hdd : (l.drop i).drop n = l.drop (i + n) := by
        rw [List.drop_drop]
      rw [← hdd, List.take_append_drop, List.take_append_drop]
  · have h0 : l.length + 1 - n = 0 := by omega
    simp [ngrams, h0]

/-- Witness for `ngram_builder_contract` at `n = 2`,
`l = ["x","y","z"]`, `i = 1`. -/
theorem ngram_builder_contract_witness :
    ∃ g, (ngrams 2 ["x", "y", "z"]).get? 1 = some g ∧ g.length = 2 ∧
      (["x", "y", "z"].take 1) ++ g ++ (["x", "y", "z"].drop (1 + 2)) =
        ["x", "y", "z"] :=
  (ngram_builder_contract 2 ["x", "y", "z"] (Or.inr (Or.inl rfl))).2.1 1
    (by decide)

/-- C3 counterexample: the claim says every variant passes `K = 5` to the
unigram ranker, but `keword.py` line 97 passes 10. -/
theorem unigram_cutoff_counterexample : keword_unigram_top ≠ 5 := by
  decide

/-- C3 (amended): the unigram cutoff is 10 in `keword.py`, `yedek.py`,
`keyword2.py` and `gelişmiş.py` and 5 in `12.py` and `kalite.py`; the
bigram/trigram cutoffs are 5 in `keword.py`, `yedek.py`, `keyword2.py` and 3
in `12.py`. -/
theorem topk_cutoffs :
    keword_unigram_top = 10 ∧ keword_bigram_top = 5 ∧ keword_trigram_top = 5 ∧
    twelve_unigram_top = 5 ∧ twelve_bigram_top = 3 ∧ twelve_trigram_top = 3 ∧
    yedek_unigram_top = 10 ∧ yedek_bigram_top = 5 ∧ yedek_trigram_top = 5 ∧
    keyword2_unigram_top = 10 ∧ keyword2_bigram_top = 5 ∧
    keyword2_trigram_top = 5 ∧ gelismis_unigram_top = 10 ∧
    kalite_unigram_top = 5 := by
  decide

/-- C4 counterexample: when the search provider fails, `12.py`'s
`analyze_keywords` returns `{}` at once — it does not continue to a result
built from the remaining collaborators, here a non-empty Amazon suggestion
list. -/
theorem search_failure_aborts_counterexample :
    ¬ ∃ cands,
      twelve_analyze none ["ve"] (some ["mavibet bahis"]) (fun _ => none) =
        Res12.ok cands := by
  rintro ⟨cands, h⟩
  exact Res12.noConfusion h

/-- C4 (amended): trend and suggestion collaborator failures degrade to `0`
and `[]` and the pipeline continues to a ranked result, but a search-provider
failure (or falsy response) short-circuits `analyze_keywords` to the empty
result, discarding the other sources. -/
theorem collaborator_failure_tolerance :
    (∀ stop amazonResp trendsRaw,
      twelve_analyze none stop amazonResp trendsRaw = Res12.empty) ∧
    (∀ sd stop trendsRaw, ∃ cands,
      twelve_analyze (some sd) stop none trendsRaw = Res12.ok cands) ∧
    (∀ k, get_google_trends_data (fun _ => none) k = 0) ∧
    scrape_amazon_suggestions none = [] := by
  exact ⟨fun _ _ _ => rfl, fun sd stop tr => ⟨_, rfl⟩, fun k => rfl, rfl⟩

/-- C5: synonym augmentation only appends: for the keyword `"mavibet"`
exactly the three synonyms `"bahis"`, `"iddaa"`, `"kumar"` are appended after
all extracted candidates, in list order, tagged as synonyms with the sentinel
count; and for every keyword the candidate list produced by the ranker is
kept as an unchanged left segment (never removed or reordered). -/
theorem synonym_augmentation_frame :
    (∀ p : List Cand2, keyword2_augment "mavibet" p =
      p ++ [⟨"bahis", .synonymTag, .synonym, false⟩,
            ⟨"iddaa", .synonymTag, .synonym, false⟩,
            ⟨"kumar", .synonymTag, .synonym, false⟩]) ∧
    (∀ k (p : List Cand2), ∃ s, keyword2_augment k p = p ++ s) ∧
    (∀ p : List (String × CountVal), yedek_augment "mavibet" p =
      p ++ [("bahis", .synonymTag), ("iddaa", .synonymTag),
            ("kumar", .synonymTag)]) ∧
    (∀ k (p : List (String × CountVal)), ∃ s, yedek_augment k p = p ++ s) := by
  have hdict : synonym_dict "mavibet" = some ["bahis", "iddaa", "kumar"] := by
    decide
  refine ⟨fun p => ?_, fun k p => ?_, fun p => ?_, fun k p => ?_⟩
  · have hb : detect_purchase_intent "bahis" = false := by decide
    have hi : detect_purchase_intent "iddaa" = false := by decide
    have hq : detect_purchase_intent "kumar" = false := by decide
    simp [keyword2_augment, hdict, hb, hi, hq]
  · cases h : synonym_dict k with
    | none => exact ⟨[], by simp [keyword2_augment, h]⟩
    | some syns =>
      exact ⟨syns.map (fun s =>
          ⟨s, .synonymTag, .synonym, detect_purchase_intent s⟩),
        by simp [keyword2_augment, h]⟩
  · simp [yedek_augment, hdict]
  · cases h : synonym_dict k with
    | none => exact ⟨[], by simp [yedek_augment, h]⟩
    | some syns =>
      exact ⟨syns.map (fun s => (s, CountVal.synonymTag)),
        by simp [yedek_augment, h]⟩

/-- C9: the `kalite.py` constructor never produces an instance: an empty or
whitespace-only key raises the empty-key `ValueError`, and any other key
makes `validate_api_key` run before `self.serp_api_key` is assigned, so the
attribute access raises, the catch-all returns `False`, and the constructor
raises the invalid-key `ValueError` regardless of the HTTP status the account
check would have returned. -/
theorem kalite_constructor_never_ok (key : String) (respStatus : Option Nat) :
    kalite_init key respStatus ≠ InitResult.ok ∧
    ((pyStripStr key).isEmpty = true →
      kalite_init key respStatus = InitResult.emptyKeyError) ∧
    ((pyStripStr key).isEmpty = false →
      kalite_init key respStatus = InitResult.invalidKeyError) := by
  have hstrip : key.isEmpty = true → (pyStripStr key).isEmpty = true := by
    intro h
    rw [String.isEmpty_iff] at h
    subst h
    rfl
  refine ⟨?_, ?_, ?_⟩
  · intro h
    unfold kalite_init at h
    by_cases hk : (key.isEmpty || (pyStripStr key).isEmpty) = true
    · rw [if_pos hk] at h
      exact InitResult.noConfusion h
    · rw [if_neg hk] at h
      simp [validate_api_key] at h
  · intro h
    simp [kalite_init, h]
  · intro h
    have hk : key.isEmpty = false := by
      cases hke : key.isEmpty with
      | false => rfl
      | true => rw [hstrip hke] at h; exact Bool.noConfusion h
    simp [kalite_init, hk, h, validate_api_key]

/-- Witness for `kalite_constructor_never_ok` at a concrete non-empty key and
a successful account-check status. -/
theorem kalite_constructor_never_ok_witness :
    kalite_init "abc" (some 200) = InitResult.invalidKeyError :=
  (kalite_constructor_never_ok "abc" (some 200)).2.2 (by decide)

/-- C10: the in-memory compute pass of `keword.py` assigns no analyzer
attribute and its result is a pure function of the analyzer state and the
extracted token input: running it twice in sequence on the same input leaves
the state unchanged and yields the same candidate list. -/
theorem pipeline_deterministic (st : AnalyzerState) (extracted : List String) :
    (keword_analyze_step st extracted).2 = st ∧
    (keword_analyze_step ((keword_analyze_step st extracted).2) extracted).1 =
      (keword_analyze_step st extracted).1 :=
  ⟨rfl, rfl⟩

/-- C1: the frequency ranker breaks count ties by first appearance — if two
distinct items have equal counts and the first appears earlier in the input,
then wherever the later one shows up in the ranked output the earlier one
precedes it — and on the tokens `["a","b","a","b","c"]` with `K = 2` the
result is exactly `[("a",2),("b",2)]`. -/
theorem ranker_tie_break :
    (∀ (k : Nat) (l : List String) (a b : String),
      a ≠ b → a ∈ l → b ∈ l → l.count a = l.count b →
      firstIdx a l < firstIdx b l →
      (b, l.count b) ∈ most_common k l →
      [(a, l.count a), (b, l.count b)].Sublist (most_common k l)) ∧
    most_common 2 ["a", "b", "a", "b", "c"] = [("a", 2), ("b", 2)] := by
  constructor
  · intro k l a b hne ha hb hcnt hidx hbmem
    have hpair : [(a, l.count a), (b, l.count b)].Sublist (counterItems l) := by
      have := (pair_sublist_firstOccs hne ha hb hidx).map
        (fun x => (x, l.count x))
      simpa using this
    have hsorted :
        [(a, l.count a), (b, l.count b)].Sublist
          (sortCountDesc (counterItems l)) :=
      sortCountDesc_stable (by rw [hcnt]) hpair
    have hpne : (a, l.count a) ≠ (b, l.count b) := by
      intro h
      exact hne (congrArg Prod.fst h)
    exact take_pair_of_mem hpne (nodup_sortCountDesc_counterItems l)
      hsorted hbmem
  · decide

/-- Witness for `ranker_tie_break` on the spec's own fixture: `"a"` and `"b"`
both occur twice, `"a"` first. -/
theorem ranker_tie_break_witness :
    [("a", List.count "a" ["a", "b", "a", "b", "c"]),
     ("b", List.count "b" ["a", "b", "a", "b", "c"])].Sublist
      (most_common 2 ["a", "b", "a", "b", "c"]) :=
  ranker_tie_break.1 2 ["a", "b", "a", "b", "c"] "a" "b" (by decide)
    (by decide) (by decide) (by decide) (by decide) (by decide)

/-- C7: the ranked output has length exactly `min K (number of distinct
items)`, a zero-length input yields an empty result, and on a duplicate-free
input of 7 tokens with `K = 5` exactly the first 5 tokens in order of first
appearance are returned, each with count 1. -/
theorem ranker_output_size :
    (∀ (k : Nat) (l : List String),
      (most_common k l).length = min k l.toFinset.card) ∧
    (∀ k : Nat, most_common k ([] : List String) = []) ∧
    (∀ l7 : List String, l7.Nodup → l7.length = 7 →
      most_common 5 l7 = (l7.take 5).map (fun x => (x, 1))) := by
  refine ⟨fun k l => ?_, fun k => by simp [most_common, counterItems,
    firstOccs, sortCountDesc], fun l7 h _ => most_common_of_nodup h 5⟩
  rw [most_common, List.length_take]
  congr 1
  rw [(sortCountDesc_perm _).length_eq, counterItems, List.length_map,
    ← List.toFinset_card_of_nodup (nodup_firstOccs l)]
  congr 1
  ext x
  simp [List.mem_toFinset, mem_firstOccs]

/-- Witness for `ranker_output_size` on 7 distinct single-occurrence
tokens. -/
theorem ranker_output_size_witness :
    most_common 5 ["t1", "t2", "t3", "t4", "t5", "t6", "t7"] =
      ((["t1", "t2", "t3", "t4", "t5", "t6", "t7"].take 5).map
        (fun x => (x, 1))) :=
  ranker_output_size.2.2 ["t1", "t2", "t3", "t4", "t5", "t6", "t7"]
    (by decide) (by decide)

/-- C6 counterexample: in the lemmatizing variant the stop-word filter runs
BEFORE `lemmatize_word`, so a stem that lands on a stop word reaches the
n-gram input: with stop-word set `["ve"]` and a stemmer mapping `"veli"` to
`"ve"`, the extracted token stream of `keyword2.py` contains the stop word
`"ve"`. -/
theorem stemmed_stop_word_counterexample :
    "ve" ∈ keyword2_extract ["ve"] (fun w => if w = "veli" then "ve" else w)
      ⟨[⟨some "veli geldi", none⟩], [], []⟩ ∧ "ve" ∈ ["ve"] := by
  constructor
  · decide
  · decide

/-- C6 (amended): stop-word filtering is exact membership (a token survives
iff it is in the input and not an exact member of the set), it preserves the
relative order of survivors, and in the variants without stemming the
sequence handed to the n-gram builder therefore contains no stop word; in
the lemmatizing variants the guarantee holds only for the tokens BEFORE
`lemmatize_word` is applied. -/
theorem stop_word_filtering :
    (∀ (stop tokens : List String) (w : String),
      w ∈ keword_filter stop tokens ↔ w ∈ tokens ∧ w ∉ stop) ∧
    (∀ stop tokens : List String, (keword_filter stop tokens).Sublist tokens) ∧
    (∀ (stop : List String) (text : String) (w : String),
      w ∈ preprocess_text stop text → w ∉ stop) := by
  refine ⟨fun stop tokens w => ?_, fun stop tokens => List.filter_sublist _,
    fun stop text w hw => ?_⟩
  · rw [keword_filter, List.mem_filter]
    simp [List.elem_iff]
  · rw [preprocess_text, List.mem_filter] at hw
    have h2 := hw.2
    simp [List.elem_iff] at h2
    exact h2

/-- Witness for `stop_word_filtering`: the token `"merhaba"` survives
preprocessing against the stop-word set `["ve"]` and indeed is not in the
set. -/
theorem stop_word_filtering_witness :
    "merhaba" ∈ preprocess_text ["ve"] "bir merhaba" ∧ "merhaba" ∉ ["ve"] :=
  ⟨by decide, stop_word_filtering.2.2 ["ve"] "bir merhaba" "merhaba"
    (by decide)⟩

/-! ### Text-shape lemmas for the candidate-text invariant -/

theorem not_whitespace_of_isWordChar {c : Char} (h : isWordChar c = true) :
    c.isWhitespace = false := by
  cases hw : c.isWhitespace with
  | false => rfl
  | true =>
    exfalso
    have hw' : (c == ' ' || c == '\t' || c == '\r' || c == '\n') = true := hw
    simp only [Bool.or_eq_true, beq_iff_eq] at hw'
    rcases hw' with ((rfl | rfl) | rfl) | rfl <;> exact absurd h (by decide)

theorem splitRunsAux_good {p : Char → Bool} :
    ∀ (l acc : List Char), (∀ c ∈ acc, p c = true) →
      ∀ r ∈ splitRunsAux p l acc, r ≠ [] ∧ ∀ c ∈ r, p c = true := by
  intro l
  induction l with
  | nil =>
    intro acc hacc r hr
    rw [splitRunsAux] at hr
    cases acc with
    | nil => simp at hr
    | cons a as =>
      rw [if_neg (by simp)] at hr
      rw [List.mem_singleton] at hr
      subst hr
      exact ⟨by simp, fun c hc => hacc c (List.mem_reverse.1 hc)⟩
  | cons c cs ih =>
    intro acc hacc r hr
    rw [splitRunsAux] at hr
    cases hpc : p c with
    | true =>
      rw [if_pos (by rw [hpc])] at hr
      refine ih (c :: acc) ?_ r hr
      intro d hd
      cases hd with
      | head => exact hpc
      | tail _ h => exact hacc d h
    | false =>
      rw [if_neg (by rw [hpc]; exact Bool.noConfusion)] at hr
      cases acc with
      | nil => exact ih [] (by simp) r (by simpa using hr)
      | cons a as =>
        rw [if_neg (by simp)] at hr
        cases hr with
        | head =>
          exact ⟨by simp, fun d hd => hacc d (List.mem_reverse.1 hd)⟩
        | tail _ h => exact ih [] (by simp) r h

theorem goodChars_intro {l : List Char} {a b : Char} (h1 : l.head? = some a)
    (h2 : l.getLast? = some b) (ha : a.isWhitespace = false)
    (hb : b.isWhitespace = false) : goodChars l = true := by
  rw [goodChars, h1, h2]
  show (!a.isWhitespace && !b.isWhitespace) = true
  rw [ha, hb]
  rfl

theorem goodChars_elim {l : List Char} (h : goodChars l = true) :
    ∃ a b, l.head? = some a ∧ l.getLast? = some b ∧
      a.isWhitespace = false ∧ b.isWhitespace = false := by
  cases l with
  | nil => exact absurd h (by decide)
  | cons c cs =>
    obtain ⟨b, hb⟩ : ∃ b, (c :: cs).getLast? = some b :=
      ⟨_, List.getLast?_eq_getLast _ (by simp)⟩
    refine ⟨c, b, List.head?_cons, hb, ?_⟩
    rw [goodChars, List.head?_cons, hb] at h
    have h2 : (!c.isWhitespace && !b.isWhitespace) = true := h
    simp only [Bool.and_eq_true, Bool.not_eq_true'] at h2
    exact h2

theorem goodChars_of_forall {l : List Char} (hne : l ≠ [])
    (h : ∀ c ∈ l, c.isWhitespace = false) : goodChars l = true := by
  cases l with
  | nil => exact absurd rfl hne
  | cons c cs =>
    exact goodChars_intro List.head?_cons
      (List.getLast?_eq_getLast _ (by simp)) (h c (by simp))
      (h _ (List.getLast_mem (by simp)))

theorem findWords_token_good {s t : String} (ht : t ∈ findWords s) :
    goodChars t.toList = true := by
  rw [findWords, List.mem_map] at ht
  obtain ⟨r, hr, rfl⟩ := ht
  obtain ⟨hne, hall⟩ := splitRunsAux_good _ [] (by simp) r hr
  show goodChars r = true
  exact goodChars_of_forall hne
    (fun c hc => not_whitespace_of_isWordChar (hall c hc))

theorem joinSpace_good :
    ∀ {ts : List (List Char)}, ts ≠ [] → (∀ t ∈ ts, goodChars t = true) →
      goodChars (joinSpace ts) = true
  | [], hne, _ => absurd rfl hne
  | [t], _, h => by
    rw [joinSpace]
    exact h t (by simp)
  | t :: u :: ts, _, h => by
    rw [joinSpace]
    have ht := h t (by simp)
    have hrest : goodChars (joinSpace (u :: ts)) = true :=
      joinSpace_good (by simp) (fun v hv => h v (List.mem_cons_of_mem t hv))
    obtain ⟨a, b, ha1, _, ha3, _⟩ := goodChars_elim ht
    obtain ⟨a', b', hb1, hb2, _, hb4⟩ := goodChars_elim hrest
    refine goodChars_intro ?_ ?_ ha3 hb4
    · rw [List.head?_append, ha1]
      rfl
    · rw [List.getLast?_append]
      have hcons : (' ' :: joinSpace (u :: ts)).getLast? = some b' := by
        rw [show (' ' :: joinSpace (u :: ts)) =
            [' '] ++ joinSpace (u :: ts) from rfl, List.getLast?_append, hb2]
        rfl
      rw [hcons]
      rfl

theorem head?_dropWhile_not {p : Char → Bool} :
    ∀ {l : List Char} {c : Char}, (l.dropWhile p).head? = some c →
      p c = false
  | [], c, h => by simp at h
  | d :: ds, c, h => by
    rw [List.dropWhile_cons] at h
    by_cases hpd : p d = true
    · rw [if_pos hpd] at h
      exact head?_dropWhile_not h
    · rw [if_neg hpd] at h
      rw [List.head?_cons, Option.some.injEq] at h
      subst h
      exact Bool.not_eq_true _ ▸ hpd

theorem pyStrip_good {l : List Char} (hne : pyStrip l ≠ []) :
    goodChars (pyStrip l) = true := by
  obtain ⟨c, hc⟩ : ∃ c,
      ((l.dropWhile Char.isWhitespace).reverse.dropWhile
        Char.isWhitespace).head? = some c := by
    cases hcase : (l.dropWhile Char.isWhitespace).reverse.dropWhile
        Char.isWhitespace with
    | nil =>
      exfalso
      apply hne
      rw [pyStrip, hcase]
      rfl
    | cons x xs => exact ⟨x, rfl⟩
  have hlast : (pyStrip l).getLast? = some c := by
    rw [pyStrip, List.getLast?_reverse, hc]
  have hcns : c.isWhitespace = false := head?_dropWhile_not hc
  obtain ⟨t, ht⟩ := List.dropWhile_suffix
    (l := (l.dropWhile Char.isWhitespace).reverse) Char.isWhitespace
  have hm : l.dropWhile Char.isWhitespace = pyStrip l ++ t.reverse := by
    have h2 := congrArg List.reverse ht
    rw [List.reverse_append, List.reverse_reverse] at h2
    exact h2.symm
  obtain ⟨a, hahead⟩ : ∃ a, (pyStrip l).head? = some a := by
    cases hcase : pyStrip l with
    | nil => exact absurd hcase hne
    | cons x xs => exact ⟨x, rfl⟩
  have hahead' : (l.dropWhile Char.isWhitespace).head? = some a := by
    rw [hm, List.head?_append, hahead]
    rfl
  have hans : a.isWhitespace = false := head?_dropWhile_not hahead'
  exact goodChars_intro hahead hlast hans hcns

theorem pyStripStr_good {s : String} (h : pyStripStr s ≠ "") :
    goodText (pyStripStr s) = true := by
  show goodChars (pyStrip s.toList) = true
  apply pyStrip_good
  intro hnil
  apply h
  rw [pyStripStr, hnil]

theorem ngrams_mem {n : Nat} {l g : List α} (hg : g ∈ ngrams n l) :
    g.length = n ∧ ∀ x ∈ g, x ∈ l := by
  rw [ngrams, List.mem_map] at hg
  obtain ⟨i, hi, rfl⟩ := hg
  rw [List.mem_range] at hi
  refine ⟨?_, fun x hx =>
    (List.drop_sublist i l).subset ((List.take_sublist n _).subset hx)⟩
  rw [List.length_take, List.length_drop]
  omega

theorem most_common_ngram_good {k n : Nat} (hn : 1 ≤ n)
    {stream : List String}
    (hs : ∀ w ∈ stream, goodChars w.toList = true) :
    ∀ p ∈ most_common k (ngrams n stream),
      goodChars (joinTokens p.1).toList = true := by
  intro p hp
  obtain ⟨hlen, hmem⟩ := ngrams_mem (most_common_mem hp).1
  show goodChars (joinSpace (p.1.map String.toList)) = true
  refine joinSpace_good ?_ ?_
  · intro h
    rw [List.map_eq_nil_iff] at h
    rw [h] at hlen
    simp at hlen
    omega
  · intro tl htl
    rw [List.mem_map] at htl
    obtain ⟨w, hw, rfl⟩ := htl
    exact hs w (hmem w hw)

theorem keword_extract_good {sd : SearchData} {t : String}
    (ht : t ∈ keword_extract sd) : goodChars t.toList = true := by
  rw [keword_extract, List.mem_append, List.mem_append] at ht
  rcases ht with (ht | ht) | ht
  · rw [List.mem_flatMap] at ht
    obtain ⟨r, _, hm⟩ := ht
    rw [List.mem_append] at hm
    rcases hm with hm | hm
    · cases hsnip : r.snippet with
      | none =>
        rw [hsnip] at hm
        exact absurd hm (List.not_mem_nil t)
      | some s =>
        rw [hsnip] at hm
        exact findWords_token_good hm
    · cases htitle : r.title with
      | none =>
        rw [htitle] at hm
        exact absurd hm (List.not_mem_nil t)
      | some s =>
        rw [htitle] at hm
        exact findWords_token_good hm
  · rw [List.mem_flatMap] at ht
    obtain ⟨q, _, hm⟩ := ht
    exact findWords_token_good hm
  · rw [List.mem_flatMap] at ht
    obtain ⟨q, _, hm⟩ := ht
    exact findWords_token_good hm

/-- Every candidate produced by the `keword.py` compute pass over a stream of
good tokens has good text. -/
theorem keword_core_good {stop extracted : List String}
    (hgood : ∀ w ∈ extracted, goodChars w.toList = true) :
    ∀ c ∈ keword_analyze_core stop extracted, goodText c.keyword = true := by
  intro c hc
  have hfil : ∀ w ∈ keword_filter stop extracted,
      goodChars w.toList = true :=
    fun w hw => hgood w ((List.filter_sublist extracted).subset hw)
  simp only [keword_analyze_core, List.mem_append, List.mem_map] at hc
  rcases hc with (⟨p, hp, rfl⟩ | ⟨p, hp, rfl⟩) | ⟨p, hp, rfl⟩
  · exact hfil p.1 (most_common_mem hp).1
  · exact most_common_ngram_good (by omega) hfil p hp
  · exact most_common_ngram_good (by omega) hfil p hp

/-- C8 counterexample: a whitespace-only Amazon suggestion is stripped to the
empty string by `scrape_amazon_suggestions` and flows through the keyword
stream of `12.py` into the ranked candidates, so the result contains a
candidate with empty text (and n-gram joins with a trailing space). -/
theorem empty_candidate_counterexample :
    twelve_analyze (some ⟨[⟨some "mavibet giris", none⟩], [], []⟩) ["ve"]
        (some ["   "]) (fun _ => none) =
      Res12.ok [⟨"mavibet", 1, 0⟩, ⟨"giris", 1, 0⟩, ⟨"", 1, 0⟩,
        ⟨"mavibet giris", 1, 0⟩, ⟨"giris ", 1, 0⟩,
        ⟨"mavibet giris ", 1, 0⟩] ∧
    goodText "" = false ∧ goodText "giris " = false := by
  refine ⟨?_, by decide, by decide⟩
  decide

/-- C8 (amended): every candidate text of the `keword.py` analysis (whose
stream holds only regex-extracted tokens) is non-empty without edge
whitespace; in `12.py` the same holds provided no Amazon suggestion strips to
the empty string — a whitespace-only suggestion violates the invariant. -/
theorem candidate_text_invariant :
    (∀ (stop : List String) (sd : SearchData),
      ∀ c ∈ keword_analyze_core stop (keword_extract sd),
        goodText c.keyword = true) ∧
    (∀ (stop : List String) (sd : SearchData) (raws : List String)
        (trendsRaw : String → Option Nat) (cands : List TCand),
      (∀ r ∈ raws, pyStripStr r ≠ "") →
      twelve_analyze (some sd) stop (some raws) trendsRaw = Res12.ok cands →
      ∀ c ∈ cands, goodText c.keyword = true) := by
  constructor
  · intro stop sd c hc
    exact keword_core_good (fun w hw => keword_extract_good hw) c hc
  · intro stop sd raws trendsRaw cands hraws heq c hc
    have hstream : ∀ w ∈ keword_extract sd ++
        scrape_amazon_suggestions (some raws), goodChars w.toList = true := by
      intro w hw
      rw [List.mem_append] at hw
      rcases hw with hw | hw
      · exact keword_extract_good hw
      · rw [scrape_amazon_suggestions, List.mem_map] at hw
        obtain ⟨r, hr, rfl⟩ := hw
        exact pyStripStr_good (hraws r hr)
    have hfil : ∀ w ∈ keword_filter stop
        (keword_extract sd ++ scrape_amazon_suggestions (some raws)),
        goodChars w.toList = true :=
      fun w hw => hstream w ((List.filter_sublist _).subset hw)
    injection heq with heq2
    subst heq2
    simp only [List.mem_append, List.mem_map] at hc
    rcases hc with (⟨p, hp, rfl⟩ | ⟨p, hp, rfl⟩) | ⟨p, hp, rfl⟩
    · exact hfil p.1 (most_common_mem hp).1
    · exact most_common_ngram_good (by omega) hfil p hp
    · exact most_common_ngram_good (by omega) hfil p hp

/-- Witness for `candidate_text_invariant`: a run of the `12.py` pipeline on
a concrete search payload and a suggestion that strips to a non-empty
string. -/
theorem candidate_text_invariant_witness :
    ∀ c ∈ [(⟨"bahis", 2, 0⟩ : TCand), ⟨"mavibet", 1, 0⟩,
        ⟨"mavibet bahis", 1, 0⟩, ⟨"bahis bahis", 1, 0⟩,
        ⟨"mavibet bahis bahis", 1, 0⟩],
      goodText c.keyword = true :=
  candidate_text_invariant.2 ["ve"] ⟨[⟨some "mavibet bahis", none⟩], [], []⟩
    [" bahis "] (fun _ => none)
    [⟨"bahis", 2, 0⟩, ⟨"mavibet", 1, 0⟩, ⟨"mavibet bahis", 1, 0⟩,
     ⟨"bahis bahis", 1, 0⟩, ⟨"mavibet bahis bahis", 1, 0⟩]
    (by decide) (by decide)

end KeywordAnalyzer
